import Mathlib

/-!
Shallow embedding of the bottle-planner feeding core
(`lib/feedings.ts`, third revision in `src/unnamed/part_013`, plus the
`/api/feedings/update` Express handler in `src/unnamed/part_001` and the
client-side completion toggle in `src/src/pages/Dashboard.tsx`).

Modelling conventions:
* Clock times: the source stores clock times as zero-padded `HH:MM` strings
  and compares / sorts them via `hours * 60 + minutes`.  For canonical
  zero-padded strings (hour < 24, minute < 60), string equality coincides
  with equality of minutes-since-midnight, so times are embedded as `Nat`
  minute counts.  The generation cursor (`new Date` arithmetic) is embedded
  as absolute minutes since an epoch; `getHours`/`getMinutes` of the cursor
  correspond to `cursor % 1440`.
* `feedWindows` values: the source stores hours (possibly fractional, e.g.
  2.5) and steps the cursor by `ideal * 60 * 60 * 1000` milliseconds; the
  embedding stores the same quantity as a whole number of minutes
  (`ideal` hours becomes `60 * ideal` minutes), which is exact for every
  whole-minute ideal.
* Amounts: JSON values decoded from the model response are copied verbatim
  by the source with no validation, so amounts are embedded as decoded JSON
  scalars (`JsonVal`), not as numbers.
* `nanoid()`: each call site draws the next fresh id; the embedding passes
  an id supply `newId : Nat → Nat` and gives the k-th entry created during
  a call the id `newId k`.
* The unbounded `while (feedings.length < 10)` loop is embedded with
  explicit fuel; a `none` result means the source loop has not terminated
  within that many iterations (and, if that holds for every fuel, never
  terminates).
* Redis (`client.get`/`client.set` with JSON serialization) is the external
  PlanStore collaborator; it is embedded at the value level as
  `Option (List PlannedFeeding)` (spec §1 places raw key-value persistence
  mechanics out of scope).
-/

/-- A decoded JSON scalar as it appears in a model response field.  The
source copies these fields verbatim (`time: feeding.time`,
`amount: feeding.amount`, ...), so non-numeric amounts survive parsing. -/
inductive JsonVal where
  | num (q : ℚ)
  | str (s : String)
  | bool (b : Bool)
  | null
  deriving Repr, DecidableEq

/-- Hour bounds between feedings, embedded in minutes (source: hours). -/
structure FeedWindows where
  min : Nat
  max : Nat
  ideal : Nat
  deriving Repr, DecidableEq

/-- Per-feeding quantity bounds and default (ounces). -/
structure FeedAmounts where
  min : ℚ
  max : ℚ
  target : ℚ
  deriving Repr, DecidableEq

/-- Fixed clock times that must appear verbatim, as minutes since
midnight of the configured `HH:MM` strings. -/
structure LockedFeedings where
  enabled : Bool
  times : List Nat
  deriving Repr, DecidableEq

/-- User-configured feeding settings (spec §3 FeedingSettings; `useMetric`
is display-only and never read by the generation code, so it is omitted). -/
structure FeedingSettings where
  feedWindows : FeedWindows
  feedAmounts : FeedAmounts
  lockedFeedings : LockedFeedings
  deriving Repr, DecidableEq

/-- One planned feeding entry (source `PlannedFeeding`).  `time` is the
minutes-since-midnight reading of the `HH:MM` clock string; `amount` is the
decoded JSON value stored in the entry (the fallback always stores a
number, the proposal path stores whatever the model sent). -/
structure PlannedFeeding where
  id : Nat
  time : Nat
  amount : JsonVal
  isLocked : Bool
  isCompleted : Bool
  deriving Repr, DecidableEq

/-- One element of the decoded JSON array found in the model response,
before the source maps it into a `PlannedFeeding`. -/
structure RawFeeding where
  time : Nat
  amount : JsonVal
  isLocked : Bool
  deriving Repr, DecidableEq

/-! ## PlanStore operations (`getPlannedFeedings` / `savePlannedFeedings`)

The store holds `none` when the key `baby:plannedFeedings` has never been
written, and `some plan` afterwards. -/

/-- Source `getPlannedFeedings`: returns the stored plan, or `[]` when the
key is absent. -/
def getPlannedFeedings (store : Option (List PlannedFeeding)) : List PlannedFeeding :=
  store.getD []

/-- Source `savePlannedFeedings`: overwrites the stored plan. -/
def savePlannedFeedings (_store : Option (List PlannedFeeding))
    (feedings : List PlannedFeeding) : Option (List PlannedFeeding) :=
  some feedings

/-- Source `updateFeeding` (lib/feedings.ts): maps over the stored plan and
sets `isCompleted` on every entry whose id matches. -/
def updateFeeding (feedings : List PlannedFeeding) (feedingId : Nat)
    (isCompleted : Bool) : List PlannedFeeding :=
  feedings.map fun feeding =>
    if feeding.id = feedingId then { feeding with isCompleted := isCompleted } else feeding

/-- Source `POST /api/feedings/update` handler (part_001): 404s (`none`)
when no plan was ever stored, otherwise applies the same map as
`updateFeeding`, saves the result and responds with the updated sequence.
The result pairs the new store content with the response body. -/
def updateHandler (store : Option (List PlannedFeeding)) (feedingId : Nat)
    (isCompleted : Bool) : Option (List PlannedFeeding × List PlannedFeeding) :=
  store.map fun plannedFeedings =>
    let updated := updateFeeding plannedFeedings feedingId isCompleted
    (updated, updated)

/-- Client-side `toggleFeedingCompleted` (Dashboard.tsx) composed with the
update endpoint: the client looks up the entry in its copy of the plan,
negates its `isCompleted`, and sends the negated value; the server sets it.
When the id is absent the request body's `isCompleted` is `undefined` and
the handler rejects it with a 400, leaving the plan unchanged. -/
def toggleCompleted (plan : List PlannedFeeding) (feedingId : Nat) : List PlannedFeeding :=
  match plan.find? fun f => f.id = feedingId with
  | some f => updateFeeding plan feedingId (!f.isCompleted)
  | none => plan

/-! ## Deterministic fallback scheduler (`generateFallbackPlan`) -/

/-- Locked-feeding pass of `generateFallbackPlan`: one entry per configured
time, in the order given, `amount = feedAmounts.target`, `isLocked = true`.
(The source also computes a dead `feedingTime` Date that is never read.) -/
def lockedEntries (settings : FeedingSettings) (newId : Nat → Nat) : List PlannedFeeding :=
  if settings.lockedFeedings.enabled then
    settings.lockedFeedings.times.enum.map fun kt =>
      { id := newId kt.1, time := kt.2,
        amount := JsonVal.num settings.feedAmounts.target,
        isLocked := true, isCompleted := false }
  else []

/-- The source's `while (feedings.length < 10)` loop, with explicit fuel.
Each iteration advances the cursor by `feedWindows.ideal` minutes, formats
its clock time (`cursor % 1440`), and appends a non-locked entry unless an
existing entry already uses that exact clock time.  `none` means the
source's unbounded loop has not reached 10 entries within `fuel`
iterations. -/
def fallbackLoop (settings : FeedingSettings) (newId : Nat → Nat) :
    Nat → Nat → Nat → List PlannedFeeding → Option (List PlannedFeeding)
  | 0, _, _, feedings =>
      if 10 ≤ feedings.length then some feedings else none
  | fuel + 1, cursor, k, feedings =>
      if 10 ≤ feedings.length then some feedings
      else
        let cursor' := cursor + settings.feedWindows.ideal
        let t := cursor' % 1440
        if feedings.any fun feeding => feeding.time = t then
          fallbackLoop settings newId fuel cursor' k feedings
        else
          fallbackLoop settings newId fuel cursor' (k + 1)
            (feedings ++ [{ id := newId k, time := t,
                            amount := JsonVal.num settings.feedAmounts.target,
                            isLocked := false, isCompleted := false }])

/-- Final pass of `generateFallbackPlan`: `feedings.sort` with the
comparator `aHours * 60 + aMinutes - (bHours * 60 + bMinutes)`, i.e. a
stable ascending sort on minutes-since-midnight. -/
def sortFeedings (feedings : List PlannedFeeding) : List PlannedFeeding :=
  feedings.insertionSort fun a b => a.time ≤ b.time

/-- Source `generateFallbackPlan`: locked entries first, then the
advancement loop until 10 entries exist, then the sort.  `now` is the
current instant in absolute minutes; `none` means the loop diverges. -/
def generateFallbackPlan (settings : FeedingSettings) (now : Nat)
    (newId : Nat → Nat) (fuel : Nat) : Option (List PlannedFeeding) :=
  let locked := lockedEntries settings newId
  (fallbackLoop settings newId fuel now locked.length locked).map sortFeedings

/-! ## Proposal parser (`parseFeedingPlan`) and orchestrator (`planFeedings`) -/

/-- Outcome of the regex match `\[[\s\S]*\]` plus `JSON.parse` on the model
response text: either no decodable array was found (regex missed or
`JSON.parse` threw), or an array of elements was decoded. -/
inductive ParseOutcome where
  | noJson
  | decoded (elems : List RawFeeding)
  deriving Repr, DecidableEq

/-- Source `parseFeedingPlan`: on a decoded array, maps every element
verbatim into an entry with a fresh id and `isCompleted = false` — no field
validation, no range checks, no invariant checks; on any extraction or
parse error, falls back to `generateFallbackPlan` inside its own catch. -/
def parseFeedingPlan (outcome : ParseOutcome) (settings : FeedingSettings)
    (now : Nat) (newId : Nat → Nat) (fuel : Nat) : Option (List PlannedFeeding) :=
  match outcome with
  | .noJson => generateFallbackPlan settings now newId fuel
  | .decoded elems =>
      some (elems.enum.map fun ke =>
        { id := newId ke.1, time := ke.2.time, amount := ke.2.amount,
          isLocked := ke.2.isLocked, isCompleted := false })

/-- Outcome of the `generateText` model call: the call raised
(network/timeout/provider error), or it returned text whose parse outcome
is given. -/
inductive ModelOutcome where
  | raised
  | responded (po : ParseOutcome)
  deriving Repr, DecidableEq

/-- Failure taxonomy of spec §7, as caller-visible errors. -/
inductive PlanError where
  | proposalUnavailable
  | proposalMalformed
  | schedulingExhausted
  | persistenceFailure
  deriving Repr, DecidableEq

/-- What one `planFeedings` call produces: the value returned (or error
thrown) to the caller, and the plan a fully successful save persisted
(`none` when no write succeeded, so the previous plan stays authoritative). -/
structure PlanResult where
  result : Except PlanError (List PlannedFeeding)
  persisted : Option (List PlannedFeeding)

/-- Source `planFeedings` (settings already fetched; spec §4.1 contract is
`generatePlan(settings, recentHistory)`).  The AI path runs inside an inner
try: a raised model call is caught and the fallback plan is generated and
saved; a response is parsed by `parseFeedingPlan` (which itself absorbs
malformed text by falling back) and the resulting plan is saved.  A failed
save inside the inner try is also caught, after which the fallback is
generated and saved again — that second save fails too, and the outer catch
rethrows the persistence error.  `saveOk` says whether Redis writes
succeed; the outer `Option` is `none` when a fallback generation diverges. -/
def planFeedings (settings : FeedingSettings) (now : Nat) (newId : Nat → Nat)
    (fuel : Nat) (outcome : ModelOutcome) (saveOk : Bool) : Option PlanResult :=
  match outcome with
  | .raised =>
      (generateFallbackPlan settings now newId fuel).map fun fallbackPlan =>
        if saveOk then ⟨.ok fallbackPlan, some fallbackPlan⟩
        else ⟨.error .persistenceFailure, none⟩
  | .responded po =>
      match parseFeedingPlan po settings now newId fuel with
      | none => none
      | some feedingPlan =>
          if saveOk then some ⟨.ok feedingPlan, some feedingPlan⟩
          else
            (generateFallbackPlan settings now newId fuel).map fun _ =>
              ⟨.error .persistenceFailure, none⟩

/-! ## Spec-side invariant checker -/

/-- Whether a decoded amount is a number within the configured bounds. -/
def amountOk (bounds : FeedAmounts) : JsonVal → Bool
  | .num q => decide (bounds.min ≤ q) && decide (q ≤ bounds.max)
  | _ => false

/-- Modelled from the spec: the §3 invariants on a finalized plan (exactly
10 entries; all time values distinct; entries sorted ascending by
minutes-since-midnight; if locked feedings are enabled, every configured
time appears exactly once with `isLocked = true` and
`amount = feedAmounts.target`; every amount within
`[feedAmounts.min, feedAmounts.max]`).  The source contains no such
checker; this definition exists to compare the source's behaviour with the
spec's mandated validation. -/
def specInvariantsHold (settings : FeedingSettings) (plan : List PlannedFeeding) : Prop :=
  plan.length = 10 ∧
  (plan.map fun e => e.time).Nodup ∧
  plan.Pairwise (fun a b => a.time ≤ b.time) ∧
  (settings.lockedFeedings.enabled = true →
    ∀ t ∈ settings.lockedFeedings.times,
      (plan.countP fun e => e.time == t) = 1 ∧
      ∀ e ∈ plan, e.time = t →
        e.isLocked = true ∧ e.amount = JsonVal.num settings.feedAmounts.target) ∧
  ∀ e ∈ plan, amountOk settings.feedAmounts e.amount = true

instance (settings : FeedingSettings) (plan : List PlannedFeeding) :
    Decidable (specInvariantsHold settings plan) := by
  unfold specInvariantsHold
  infer_instance

/-! ## Helper lemmas -/

lemma updateFeeding_map_id (plan : List PlannedFeeding) (feedingId : Nat) (b : Bool) :
    (updateFeeding plan feedingId b).map (fun f => f.id) = plan.map fun f => f.id := by
  unfold updateFeeding
  rw [List.map_map]
  refine List.map_congr_left fun f _ => ?_
  by_cases h : f.id = feedingId <;> simp [h]

lemma updateFeeding_not_mem (plan : List PlannedFeeding) (feedingId : Nat) (b : Bool)
    (h : feedingId ∉ plan.map fun f => f.id) : updateFeeding plan feedingId b = plan := by
  induction plan with
  | nil => rfl
  | cons hd tl ih =>
      simp only [List.map_cons, List.mem_cons, not_or] at h
      have hhd : ¬ hd.id = feedingId := fun hh => h.1 hh.symm
      simp only [updateFeeding, List.map_cons, if_neg hhd]
      exact congrArg (hd :: ·) (ih h.2)

lemma updateFeeding_updateFeeding (plan : List PlannedFeeding) (feedingId : Nat) (v w : Bool) :
    updateFeeding (updateFeeding plan feedingId v) feedingId w = updateFeeding plan feedingId w := by
  unfold updateFeeding
  rw [List.map_map]
  refine List.map_congr_left fun f _ => ?_
  by_cases h : f.id = feedingId <;> simp [h]

lemma find?_id_eq_of_nodup (plan : List PlannedFeeding) (f : PlannedFeeding)
    (hnd : (plan.map fun g => g.id).Nodup) (hf : f ∈ plan) :
    plan.find? (fun g => g.id = f.id) = some f := by
  induction plan with
  | nil => cases hf
  | cons hd tl ih =>
      simp only [List.map_cons, List.nodup_cons] at hnd
      rcases List.mem_cons.mp hf with rfl | hmem
      · exact List.find?_cons_of_pos _ (by simp)
      · have hne : ¬ hd.id = f.id := by
          intro he
          exact hnd.1 (he ▸ List.mem_map.mpr ⟨f, hmem, rfl⟩)
        rw [List.find?_cons_of_neg _ (by simp [hne])]
        exact ih hnd.2 hmem

lemma updateFeeding_self (plan : List PlannedFeeding) (f : PlannedFeeding)
    (hnd : (plan.map fun g => g.id).Nodup) (hf : f ∈ plan) :
    updateFeeding plan f.id f.isCompleted = plan := by
  induction plan with
  | nil => rfl
  | cons hd tl ih =>
      simp only [List.map_cons, List.nodup_cons] at hnd
      rcases List.mem_cons.mp hf with rfl | hmem
      · have htl : f.id ∉ tl.map fun g => g.id := hnd.1
        simp only [updateFeeding, List.map_cons, if_pos rfl]
        have : updateFeeding tl f.id f.isCompleted = tl := updateFeeding_not_mem tl _ _ htl
        simp only [updateFeeding] at this
        rw [this]
        rfl
      · have hne : ¬ hd.id = f.id := by
          intro he
          exact hnd.1 (he ▸ List.mem_map.mpr ⟨f, hmem, rfl⟩)
        simp only [updateFeeding, List.map_cons, if_neg hne]
        have := ih hnd.2 hmem
        simp only [updateFeeding] at this
        rw [this]

lemma find?_updateFeeding (plan : List PlannedFeeding) (feedingId : Nat) (v : Bool)
    (f₀ : PlannedFeeding) (h : plan.find? (fun g => g.id = feedingId) = some f₀) :
    (updateFeeding plan feedingId v).find? (fun g => g.id = feedingId)
      = some { f₀ with isCompleted := v } := by
  induction plan with
  | nil => simp [List.find?] at h
  | cons hd tl ih =>
      by_cases hh : hd.id = feedingId
      · rw [List.find?_cons_of_pos _ (by simp [hh])] at h
        injection h with h
        subst h
        simp only [updateFeeding, List.map_cons, if_pos hh]
        exact List.find?_cons_of_pos _ (by simp [hh])
      · rw [List.find?_cons_of_neg _ (by simp [hh])] at h
        simp only [updateFeeding, List.map_cons, if_neg hh]
        rw [List.find?_cons_of_neg _ (by simp [hh])]
        have := ih h
        simpa [updateFeeding] using this

/-! ## Concrete inputs used by witnesses and counterexamples -/

/-- A plain settings value: windows 1h/2.5h/4h (in minutes), amounts
1–4 oz with target 2, locked feedings disabled. -/
def settingsPlain : FeedingSettings :=
  { feedWindows := { min := 60, max := 240, ideal := 150 },
    feedAmounts := { min := 1, max := 4, target := 2 },
    lockedFeedings := { enabled := false, times := [] } }

/-- Spec §8 scenario 1: locked times 22:00, 00:30, 03:00, 05:30, 08:00;
ideal 2.5 h; target 2 oz. -/
def settingsScenario1 : FeedingSettings :=
  { feedWindows := { min := 60, max := 240, ideal := 150 },
    feedAmounts := { min := 1, max := 4, target := 2 },
    lockedFeedings := { enabled := true, times := [1320, 30, 180, 330, 480] } }

/-- Spec §8 scenario 2: locked feedings disabled, ideal exactly 3 h. -/
def settingsIdealThreeHours : FeedingSettings :=
  { feedWindows := { min := 60, max := 300, ideal := 180 },
    feedAmounts := { min := 1, max := 4, target := 2 },
    lockedFeedings := { enabled := false, times := [] } }

/-- Settings that satisfy the ordering hypotheses of C4 but configure the
same locked time (08:00) twice. -/
def settingsDupLocked : FeedingSettings :=
  { feedWindows := { min := 60, max := 240, ideal := 150 },
    feedAmounts := { min := 1, max := 4, target := 2 },
    lockedFeedings := { enabled := true, times := [480, 480] } }

/-- A two-entry stored plan with distinct ids, used to instantiate the
update/toggle theorems. -/
def planTwo : List PlannedFeeding :=
  [{ id := 1, time := 600, amount := JsonVal.num 2, isLocked := false, isCompleted := false },
   { id := 2, time := 720, amount := JsonVal.num 2, isLocked := true, isCompleted := true }]

/-! ## Claim theorems -/

/-- C8: persistence round trip — after `savePlannedFeedings p`,
`getPlannedFeedings` returns a sequence equal to `p`, for every plan `p`
and every prior store content; and `getPlannedFeedings` returns the empty
sequence when no plan has ever been persisted. -/
theorem save_get_roundtrip :
    (∀ (store : Option (List PlannedFeeding)) (p : List PlannedFeeding),
      getPlannedFeedings (savePlannedFeedings store p) = p) ∧
    getPlannedFeedings none = [] :=
  ⟨fun _ _ => rfl, rfl⟩

/-- C9: frame property of `updateFeeding` — the update preserves length;
every entry whose id differs from the target id is still present verbatim;
every entry of the result agrees with some stored entry on all fields
except possibly `isCompleted`, and is identical to it when the id differs
from the target; and when no entry carries the target id the stored plan is
returned exactly unchanged (the operation completes without error). -/
theorem updateFeeding_frame (plan : List PlannedFeeding) (feedingId : Nat) (b : Bool) :
    (updateFeeding plan feedingId b).length = plan.length ∧
    (∀ f ∈ plan, f.id ≠ feedingId → f ∈ updateFeeding plan feedingId b) ∧
    (∀ g ∈ updateFeeding plan feedingId b,
      ∃ f ∈ plan, g.id = f.id ∧ g.time = f.time ∧ g.amount = f.amount ∧
        g.isLocked = f.isLocked ∧ (f.id ≠ feedingId → g = f)) ∧
    ((feedingId ∉ plan.map fun f => f.id) → updateFeeding plan feedingId b = plan) := by
  refine ⟨?_, ?_, ?_, updateFeeding_not_mem plan feedingId b⟩
  · exact List.length_map plan _
  · intro f hf hne
    have : (if f.id = feedingId then { f with isCompleted := b } else f) = f :=
      if_neg hne
    exact this ▸ List.mem_map_of_mem _ hf
  · intro g hg
    rcases List.mem_map.mp hg with ⟨f, hf, hfg⟩
    by_cases h : f.id = feedingId
    · rw [if_pos h] at hfg
      exact ⟨f, hf, by rw [← hfg], by rw [← hfg], by rw [← hfg], by rw [← hfg],
        fun hne => absurd h hne⟩
    · rw [if_neg h] at hfg
      exact ⟨f, hf, by rw [← hfg], by rw [← hfg], by rw [← hfg], by rw [← hfg],
        fun _ => hfg.symm⟩

/-- C9 witness: the frame theorem applied to a concrete two-entry plan. -/
theorem updateFeeding_frame_witness :
    (updateFeeding planTwo 1 true).length = planTwo.length ∧
    ({ id := 2, time := 720, amount := JsonVal.num 2, isLocked := true,
       isCompleted := true } : PlannedFeeding) ∈ updateFeeding planTwo 1 true ∧
    updateFeeding planTwo 5 true = planTwo :=
  ⟨(updateFeeding_frame planTwo 1 true).1,
   (updateFeeding_frame planTwo 1 true).2.1 _ (by decide) (by decide),
   (updateFeeding_frame planTwo 5 true).2.2.2 (by decide)⟩

/-- C6: the completion operation is a true flip — on a stored plan with
unique entry ids, toggling an id that is present twice restores the plan
exactly; one toggle equals flipping exactly that entry's `isCompleted`
flag and nothing else; and the update endpoint responds with the updated
sequence it stored. -/
theorem toggleCompleted_involutive (plan : List PlannedFeeding) (feedingId : Nat)
    (hnd : (plan.map fun f => f.id).Nodup) (hmem : ∃ f ∈ plan, f.id = feedingId) :
    toggleCompleted (toggleCompleted plan feedingId) feedingId = plan ∧
    toggleCompleted plan feedingId
      = plan.map (fun f => if f.id = feedingId then { f with isCompleted := !f.isCompleted }
          else f) ∧
    ∀ b, updateHandler (some plan) feedingId b
      = some (updateFeeding plan feedingId b, updateFeeding plan feedingId b) := by
  obtain ⟨f, hf, rfl⟩ := hmem
  have hfind : plan.find? (fun g => g.id = f.id) = some f := find?_id_eq_of_nodup plan f hnd hf
  refine ⟨?_, ?_, fun b => rfl⟩
  · have h1 : toggleCompleted plan f.id = updateFeeding plan f.id (!f.isCompleted) := by
      unfold toggleCompleted
      rw [hfind]
    have hfind2 : (updateFeeding plan f.id (!f.isCompleted)).find? (fun g => g.id = f.id)
        = some { f with isCompleted := !f.isCompleted } :=
      find?_updateFeeding plan f.id (!f.isCompleted) f hfind
    have h2 : toggleCompleted (updateFeeding plan f.id (!f.isCompleted)) f.id
        = updateFeeding (updateFeeding plan f.id (!f.isCompleted)) f.id (!(!f.isCompleted)) := by
      unfold toggleCompleted
      rw [hfind2]
    rw [h1, h2, Bool.not_not, updateFeeding_updateFeeding]
    exact updateFeeding_self plan f hnd hf
  · unfold toggleCompleted
    rw [hfind]
    unfold updateFeeding
    refine List.map_congr_left fun g hg => ?_
    by_cases h : g.id = f.id
    · have : g = f := List.inj_on_of_nodup_map hnd hg hf h
      subst this
      simp [h]
    · rw [if_neg h, if_neg h]

/-- C6 witness: double toggle on a concrete plan restores it. -/
theorem toggleCompleted_involutive_witness :
    toggleCompleted (toggleCompleted planTwo 2) 2 = planTwo :=
  (toggleCompleted_involutive planTwo 2 (by decide)
    ⟨{ id := 2, time := 720, amount := JsonVal.num 2, isLocked := true, isCompleted := true },
     by decide, rfl⟩).1

/-- C1: evidence against the claimed pre-write validation — a model
response whose decoded array has a single (well-typed) element is accepted
by the proposal path and persisted verbatim, although the resulting
one-entry plan violates the §3 invariants (it does not have 10 entries).
No validation happens anywhere between decoding and the write. -/
theorem planFeedings_persists_invalid_plan :
    planFeedings settingsPlain 510 (fun k => k) 0
      (ModelOutcome.responded (ParseOutcome.decoded
        [{ time := 600, amount := JsonVal.num 2, isLocked := false }])) true
      = some { result := Except.ok
                 [{ id := 0, time := 600, amount := JsonVal.num 2,
                    isLocked := false, isCompleted := false }],
               persisted := some
                 [{ id := 0, time := 600, amount := JsonVal.num 2,
                    isLocked := false, isCompleted := false }] } ∧
    ¬ specInvariantsHold settingsPlain
        [{ id := 0, time := 600, amount := JsonVal.num 2,
           isLocked := false, isCompleted := false }] :=
  ⟨rfl, by decide⟩

/-- C3: evidence against the claimed reject-all element validation — a
decoded array whose single element carries the non-numeric amount
"two ounces" is accepted verbatim by `parseFeedingPlan` (no fallback, no
rejection), even though that amount fails the spec's numeric range check. -/
theorem parseFeedingPlan_accepts_invalid_element :
    parseFeedingPlan (ParseOutcome.decoded
        [{ time := 600, amount := JsonVal.str "two ounces", isLocked := false }])
      settingsPlain 510 (fun k => k) 0
      = some [{ id := 0, time := 600, amount := JsonVal.str "two ounces",
                isLocked := false, isCompleted := false }] ∧
    amountOk settingsPlain.feedAmounts (JsonVal.str "two ounces") = false :=
  ⟨rfl, rfl⟩

/-- C5: fallback transparency — whenever the proposal path fails (the
model call raised, or its response contained no parseable JSON array),
`planFeedings` returns and persists exactly the deterministic fallback
output for the same settings and instant; and the only error a caller can
ever observe from `planFeedings` is `SchedulingExhausted` or
`PersistenceFailure` — never `ProposalUnavailable` or `ProposalMalformed`. -/
theorem planFeedings_fallback_transparent :
    (∀ (settings : FeedingSettings) (now : Nat) (newId : Nat → Nat) (fuel : Nat)
       (outcome : ModelOutcome),
      (outcome = ModelOutcome.raised ∨ outcome = ModelOutcome.responded ParseOutcome.noJson) →
      planFeedings settings now newId fuel outcome true
        = (generateFallbackPlan settings now newId fuel).map
            fun fallbackPlan => { result := Except.ok fallbackPlan,
                                  persisted := some fallbackPlan }) ∧
    (∀ (settings : FeedingSettings) (now : Nat) (newId : Nat → Nat) (fuel : Nat)
       (outcome : ModelOutcome) (saveOk : Bool) (r : PlanResult) (e : PlanError),
      planFeedings settings now newId fuel outcome saveOk = some r →
      r.result = Except.error e →
      e = PlanError.schedulingExhausted ∨ e = PlanError.persistenceFailure) := by
  constructor
  · rintro settings now newId fuel outcome (rfl | rfl)
    · simp [planFeedings]
    · simp only [planFeedings, parseFeedingPlan]
      cases generateFallbackPlan settings now newId fuel <;> simp
  · intro settings now newId fuel outcome saveOk r e hsome hres
    cases outcome with
    | raised =>
        simp only [planFeedings] at hsome
        rcases Option.map_eq_some'.mp hsome with ⟨fb, _, hr⟩
        cases saveOk with
        | true =>
            rw [if_pos rfl] at hr
            subst hr
            simp at hres
        | false =>
            rw [if_neg Bool.false_ne_true] at hr
            subst hr
            injection hres with h
            exact Or.inr h.symm
    | responded po =>
        simp only [planFeedings] at hsome
        cases hp : parseFeedingPlan po settings now newId fuel with
        | none => rw [hp] at hsome; cases hsome
        | some plan =>
            rw [hp] at hsome
            dsimp only at hsome
            cases saveOk with
            | true =>
                rw [if_pos rfl] at hsome
                injection hsome with hsome
                subst hsome
                simp at hres
            | false =>
                rw [if_neg Bool.false_ne_true] at hsome
                rcases Option.map_eq_some'.mp hsome with ⟨_, _, hr⟩
                subst hr
                injection hres with h
                exact Or.inr h.symm

/-- C5 witness: a raised model call on concrete settings yields exactly the
fallback result. -/
theorem planFeedings_fallback_transparent_witness :
    planFeedings settingsPlain 510 (fun k => k) 10 ModelOutcome.raised true
      = (generateFallbackPlan settingsPlain 510 (fun k => k) 10).map
          fun fallbackPlan => { result := Except.ok fallbackPlan,
                                persisted := some fallbackPlan } :=
  planFeedings_fallback_transparent.1 settingsPlain 510 (fun k => k) 10
    ModelOutcome.raised (Or.inl rfl)

lemma nodup_mult180_length_le (l : List Nat)
    (h : ∀ x ∈ l, x % 180 = 0 ∧ x < 1440) (hnd : l.Nodup) : l.length ≤ 8 := by
  have hsub : l.toFinset ⊆ ({0, 180, 360, 540, 720, 900, 1080, 1260} : Finset Nat) := by
    intro x hx
    have hx' := h x (List.mem_toFinset.mp hx)
    have hcases : x = 0 ∨ x = 180 ∨ x = 360 ∨ x = 540 ∨ x = 720 ∨ x = 900 ∨
        x = 1080 ∨ x = 1260 := by omega
    rcases hcases with rfl | rfl | rfl | rfl | rfl | rfl | rfl | rfl <;> decide
  calc l.length = l.toFinset.card := (List.toFinset_card_of_nodup hnd).symm
    _ ≤ ({0, 180, 360, 540, 720, 900, 1080, 1260} : Finset Nat).card :=
        Finset.card_le_card hsub
    _ ≤ 8 := by decide

lemma fallbackLoop_ideal180_none (settings : FeedingSettings) (newId : Nat → Nat)
    (hideal : settings.feedWindows.ideal = 180) :
    ∀ (fuel cursor k : Nat) (acc : List PlannedFeeding),
      cursor % 180 = 0 →
      (∀ f ∈ acc, f.time % 180 = 0 ∧ f.time < 1440) →
      ((acc.map fun f => f.time).Nodup) →
      fallbackLoop settings newId fuel cursor k acc = none := by
  intro fuel
  induction fuel with
  | zero =>
      intro cursor k acc _ hacc hnd
      have hlen : acc.length ≤ 8 := by
        have h8 := nodup_mult180_length_le (acc.map fun f => f.time)
          (fun x hx => by
            rcases List.mem_map.mp hx with ⟨f, hf, rfl⟩
            exact hacc f hf) hnd
        rwa [List.length_map] at h8
      simp only [fallbackLoop]
      rw [if_neg (by omega)]
  | succ n ih =>
      intro cursor k acc hc hacc hnd
      have hlen : acc.length ≤ 8 := by
        have h8 := nodup_mult180_length_le (acc.map fun f => f.time)
          (fun x hx => by
            rcases List.mem_map.mp hx with ⟨f, hf, rfl⟩
            exact hacc f hf) hnd
        rwa [List.length_map] at h8
      simp only [fallbackLoop, hideal]
      rw [if_neg (by omega)]
      have hc' : (cursor + 180) % 180 = 0 := by omega
      have ht180 : ((cursor + 180) % 1440) % 180 = 0 := by
        rw [Nat.mod_mod_of_dvd _ (by norm_num : (180 : ℕ) ∣ 1440)]
        exact hc'
      have htlt : (cursor + 180) % 1440 < 1440 := Nat.mod_lt _ (by norm_num)
      by_cases hany : (acc.any fun f => f.time = (cursor + 180) % 1440) = true
      · rw [if_pos hany]
        exact ih (cursor + 180) k acc hc' hacc hnd
      · rw [if_neg hany]
        refine ih (cursor + 180) (k + 1) _ hc' ?_ ?_
        · intro f hf
          rcases List.mem_append.mp hf with hf' | hf'
          · exact hacc f hf'
          · rcases List.mem_singleton.mp hf' with rfl
            exact ⟨ht180, htlt⟩
        · rw [List.map_append]
          rw [List.nodup_append]
          refine ⟨hnd, List.nodup_singleton _, ?_⟩
          intro x hx hx'
          rcases List.mem_map.mp hx with ⟨f, hf, rfl⟩
          rcases List.mem_singleton.mp hx' with h
          exact hany (List.any_eq_true.mpr ⟨f, hf, by simp [h]⟩)

/-- C2: the advancement loop of `generateFallbackPlan` is not bounded — on
settings with locked feedings disabled and `feedWindows.ideal` equal to
3 hours, starting from 06:00, only 8 distinct clock times are ever
reachable, so the source's `while (feedings.length < 10)` loop never
terminates: for every iteration budget the embedded loop still has not
produced a plan, and consequently a plan request on the fallback path never
returns (it neither persists a plan nor signals `SchedulingExhausted`). -/
theorem fallback_ideal3_never_terminates :
    ∀ (fuel : Nat) (newId : Nat → Nat),
      generateFallbackPlan settingsIdealThreeHours 360 newId fuel = none ∧
      planFeedings settingsIdealThreeHours 360 newId fuel ModelOutcome.raised true = none := by
  intro fuel newId
  have hloop : fallbackLoop settingsIdealThreeHours newId fuel 360
      (lockedEntries settingsIdealThreeHours newId).length
      (lockedEntries settingsIdealThreeHours newId) = none := by
    have hl : lockedEntries settingsIdealThreeHours newId = [] := rfl
    rw [hl]
    exact fallbackLoop_ideal180_none settingsIdealThreeHours newId rfl fuel 360 0 []
      (by norm_num) (fun f hf => absurd hf (List.not_mem_nil f)) List.nodup_nil
  have hg : generateFallbackPlan settingsIdealThreeHours 360 newId fuel = none := by
    simp only [generateFallbackPlan, hloop, Option.map_none']
  exact ⟨hg, by simp [planFeedings, hg]⟩

lemma mem_lockedEntries (settings : FeedingSettings) (newId : Nat → Nat) :
    ∀ e ∈ lockedEntries settings newId,
      e.isLocked = true ∧ e.isCompleted = false ∧
      e.amount = JsonVal.num settings.feedAmounts.target ∧
      e.time ∈ settings.lockedFeedings.times := by
  intro e he
  unfold lockedEntries at he
  by_cases hen : settings.lockedFeedings.enabled
  · rw [if_pos hen] at he
    rcases List.mem_map.mp he with ⟨kt, hkt, rfl⟩
    refine ⟨rfl, rfl, rfl, ?_⟩
    have hsnd := List.mem_map_of_mem Prod.snd hkt
    rwa [List.enum_map_snd] at hsnd
  · rw [if_neg hen] at he
    cases he

lemma fallbackLoop_completed (settings : FeedingSettings) (newId : Nat → Nat) :
    ∀ (fuel cursor k : Nat) (acc res : List PlannedFeeding),
      fallbackLoop settings newId fuel cursor k acc = some res →
      (∀ f ∈ acc, f.isCompleted = false) →
      ∀ f ∈ res, f.isCompleted = false := by
  intro fuel
  induction fuel with
  | zero =>
      intro cursor k acc res hres hacc
      simp only [fallbackLoop] at hres
      by_cases h10 : 10 ≤ acc.length
      · rw [if_pos h10] at hres
        injection hres with hres
        exact hres ▸ hacc
      · rw [if_neg h10] at hres
        cases hres
  | succ n ih =>
      intro cursor k acc res hres hacc
      simp only [fallbackLoop] at hres
      by_cases h10 : 10 ≤ acc.length
      · rw [if_pos h10] at hres
        injection hres with hres
        exact hres ▸ hacc
      · rw [if_neg h10] at hres
        by_cases hany : (acc.any fun f =>
            f.time = (cursor + settings.feedWindows.ideal) % 1440) = true
        · rw [if_pos hany] at hres
          exact ih _ _ _ _ hres hacc
        · rw [if_neg hany] at hres
          refine ih _ _ _ _ hres ?_
          intro f hf
          rcases List.mem_append.mp hf with hf' | hf'
          · exact hacc f hf'
          · rcases List.mem_singleton.mp hf' with rfl
            rfl

/-- C10: freshly generated plans carry no completion marks — every entry
the fallback scheduler produces, and every entry the proposal parser emits
(on either of its branches), has `isCompleted = false`, so a regeneration
erases any completion flags of the previously stored plan. -/
theorem generated_plans_not_completed :
    (∀ (settings : FeedingSettings) (now : Nat) (newId : Nat → Nat) (fuel : Nat)
       (plan : List PlannedFeeding),
      generateFallbackPlan settings now newId fuel = some plan →
      ∀ e ∈ plan, e.isCompleted = false) ∧
    (∀ (outcome : ParseOutcome) (settings : FeedingSettings) (now : Nat)
       (newId : Nat → Nat) (fuel : Nat) (plan : List PlannedFeeding),
      parseFeedingPlan outcome settings now newId fuel = some plan →
      ∀ e ∈ plan, e.isCompleted = false) := by
  have hfb : ∀ (settings : FeedingSettings) (now : Nat) (newId : Nat → Nat) (fuel : Nat)
      (plan : List PlannedFeeding),
      generateFallbackPlan settings now newId fuel = some plan →
      ∀ e ∈ plan, e.isCompleted = false := by
    intro settings now newId fuel plan hplan e he
    simp only [generateFallbackPlan] at hplan
    rcases Option.map_eq_some'.mp hplan with ⟨res, hres, rfl⟩
    have hperm := List.perm_insertionSort (fun a b : PlannedFeeding => a.time ≤ b.time) res
    have he' : e ∈ res := hperm.mem_iff.mp he
    exact fallbackLoop_completed settings newId fuel now _ _ res hres
      (fun f hf => (mem_lockedEntries settings newId f hf).2.1) e he'
  refine ⟨hfb, ?_⟩
  intro outcome settings now newId fuel plan hplan e he
  cases outcome with
  | noJson => exact hfb settings now newId fuel plan hplan e he
  | decoded elems =>
      simp only [parseFeedingPlan] at hplan
      injection hplan with h
      subst h
      rcases List.mem_map.mp he with ⟨ke, _, rfl⟩
      rfl

/-- C10 witness: the single entry emitted for a concrete decoded element
is not completed. -/
theorem generated_plans_not_completed_witness :
    ({ id := 0, time := 540, amount := JsonVal.num 3, isLocked := false,
       isCompleted := false } : PlannedFeeding).isCompleted = false :=
  generated_plans_not_completed.2
    (ParseOutcome.decoded [{ time := 540, amount := JsonVal.num 3, isLocked := false }])
    settingsPlain 0 (fun k => k) 0
    [{ id := 0, time := 540, amount := JsonVal.num 3, isLocked := false,
       isCompleted := false }] rfl _ (by decide)

/-- The id-independent content of an entry: its clock time, amount and
lock flag. -/
def planTuple (e : PlannedFeeding) : Nat × JsonVal × Bool := (e.time, e.amount, e.isLocked)

lemma any_time_congr :
    ∀ {l₁ l₂ : List PlannedFeeding}, l₁.map planTuple = l₂.map planTuple →
      ∀ t : Nat, (l₁.any fun f => f.time = t) = (l₂.any fun f => f.time = t) := by
  intro l₁
  induction l₁ with
  | nil =>
      intro l₂ h t
      cases l₂ with
      | nil => rfl
      | cons b tb => simp at h
  | cons a ta ih =>
      intro l₂ h t
      cases l₂ with
      | nil => simp at h
      | cons b tb =>
          simp only [List.map_cons, List.cons.injEq] at h
          have htime : a.time = b.time := congrArg Prod.fst h.1
          simp only [List.any_cons]
          rw [htime, ih h.2 t]

lemma orderedInsert_map_tuple (a b : PlannedFeeding) :
    ∀ (l₁ l₂ : List PlannedFeeding),
      planTuple a = planTuple b → l₁.map planTuple = l₂.map planTuple →
      (List.orderedInsert (fun x y => x.time ≤ y.time) a l₁).map planTuple
        = (List.orderedInsert (fun x y => x.time ≤ y.time) b l₂).map planTuple := by
  intro l₁
  induction l₁ with
  | nil =>
      intro l₂ hab h
      cases l₂ with
      | nil => simp [List.orderedInsert, hab]
      | cons y ty => simp at h
  | cons x tx ih =>
      intro l₂ hab h
      cases l₂ with
      | nil => simp at h
      | cons y ty =>
          simp only [List.map_cons, List.cons.injEq] at h
          have hxy : x.time = y.time := congrArg Prod.fst h.1
          have habt : a.time = b.time := congrArg Prod.fst hab
          simp only [List.orderedInsert]
          by_cases hle : a.time ≤ x.time
          · rw [if_pos hle, if_pos (by rw [← habt, ← hxy]; exact hle)]
            simp only [List.map_cons]
            rw [hab, h.1, h.2]
          · rw [if_neg hle, if_neg (by rw [← habt, ← hxy]; exact hle)]
            simp only [List.map_cons]
            rw [h.1, ih ty hab h.2]

lemma insertionSort_map_tuple :
    ∀ (l₁ l₂ : List PlannedFeeding), l₁.map planTuple = l₂.map planTuple →
      (l₁.insertionSort fun x y => x.time ≤ y.time).map planTuple
        = (l₂.insertionSort fun x y => x.time ≤ y.time).map planTuple := by
  intro l₁
  induction l₁ with
  | nil =>
      intro l₂ h
      cases l₂ with
      | nil => rfl
      | cons b tb => simp at h
  | cons a ta ih =>
      intro l₂ h
      cases l₂ with
      | nil => simp at h
      | cons b tb =>
          simp only [List.map_cons, List.cons.injEq] at h
          simp only [List.insertionSort]
          exact orderedInsert_map_tuple a b _ _ h.1 (ih tb h.2)

lemma fallbackLoop_map_tuple (settings : FeedingSettings) (newId₁ newId₂ : Nat → Nat) :
    ∀ (fuel cursor k₁ k₂ : Nat) (acc₁ acc₂ : List PlannedFeeding),
      acc₁.map planTuple = acc₂.map planTuple →
      Option.map (List.map planTuple) (fallbackLoop settings newId₁ fuel cursor k₁ acc₁)
        = Option.map (List.map planTuple) (fallbackLoop settings newId₂ fuel cursor k₂ acc₂) := by
  intro fuel
  induction fuel with
  | zero =>
      intro cursor k₁ k₂ acc₁ acc₂ h
      have hlen : acc₁.length = acc₂.length := by
        have := congrArg List.length h
        simpa using this
      simp only [fallbackLoop, hlen]
      by_cases h10 : 10 ≤ acc₂.length
      · rw [if_pos h10, if_pos h10]
        exact congrArg some h
      · rw [if_neg h10, if_neg h10]
  | succ n ih =>
      intro cursor k₁ k₂ acc₁ acc₂ h
      have hlen : acc₁.length = acc₂.length := by
        have := congrArg List.length h
        simpa using this
      simp only [fallbackLoop, hlen]
      by_cases h10 : 10 ≤ acc₂.length
      · rw [if_pos h10, if_pos h10]
        exact congrArg some h
      · rw [if_neg h10, if_neg h10]
        have hany := any_time_congr h ((cursor + settings.feedWindows.ideal) % 1440)
        rw [hany]
        by_cases ha : (acc₂.any fun f =>
            f.time = (cursor + settings.feedWindows.ideal) % 1440) = true
        · rw [if_pos ha, if_pos ha]
          exact ih _ _ _ _ _ h
        · rw [if_neg ha, if_neg ha]
          refine ih _ _ _ _ _ ?_
          rw [List.map_append, List.map_append, h]
          rfl

lemma lockedEntries_map_tuple (settings : FeedingSettings) (newId₁ newId₂ : Nat → Nat) :
    (lockedEntries settings newId₁).map planTuple
      = (lockedEntries settings newId₂).map planTuple := by
  unfold lockedEntries
  by_cases hen : settings.lockedFeedings.enabled
  · rw [if_pos hen, if_pos hen, List.map_map, List.map_map]
    exact List.map_congr_left fun kt _ => rfl
  · rw [if_neg hen, if_neg hen]

/-- C7: the fallback scheduler is deterministic up to ids — two invocations
with identical settings, identical instant and identical iteration budget
but different id supplies produce the same sequence of
(time, amount, isLocked) tuples. -/
theorem fallback_deterministic_up_to_ids (settings : FeedingSettings) (now fuel : Nat)
    (newId₁ newId₂ : Nat → Nat) :
    Option.map (List.map planTuple) (generateFallbackPlan settings now newId₁ fuel)
      = Option.map (List.map planTuple) (generateFallbackPlan settings now newId₂ fuel) := by
  simp only [generateFallbackPlan]
  have hlock := lockedEntries_map_tuple settings newId₁ newId₂
  have hlen : (lockedEntries settings newId₁).length = (lockedEntries settings newId₂).length := by
    have := congrArg List.length hlock
    simpa using this
  have hloop := fallbackLoop_map_tuple settings newId₁ newId₂ fuel now
    (lockedEntries settings newId₁).length (lockedEntries settings newId₂).length
    (lockedEntries settings newId₁) (lockedEntries settings newId₂) hlock
  cases h₁ : fallbackLoop settings newId₁ fuel now
      (lockedEntries settings newId₁).length (lockedEntries settings newId₁) with
  | none =>
      cases h₂ : fallbackLoop settings newId₂ fuel now
          (lockedEntries settings newId₂).length (lockedEntries settings newId₂) with
      | none => rfl
      | some l₂ =>
          rw [h₁, h₂] at hloop
          simp at hloop
  | some l₁ =>
      cases h₂ : fallbackLoop settings newId₂ fuel now
          (lockedEntries settings newId₂).length (lockedEntries settings newId₂) with
      | none =>
          rw [h₁, h₂] at hloop
          simp at hloop
      | some l₂ =>
          rw [h₁, h₂] at hloop
          simp only [Option.map_some'] at hloop ⊢
          injection hloop with hloop
          exact congrArg some (insertionSort_map_tuple l₁ l₂ hloop)

lemma fallbackLoop_length (settings : FeedingSettings) (newId : Nat → Nat) :
    ∀ (fuel cursor k : Nat) (acc res : List PlannedFeeding),
      fallbackLoop settings newId fuel cursor k acc = some res →
      acc.length ≤ 10 → res.length = 10 := by
  intro fuel
  induction fuel with
  | zero =>
      intro cursor k acc res hres hle
      simp only [fallbackLoop] at hres
      by_cases h10 : 10 ≤ acc.length
      · rw [if_pos h10] at hres
        injection hres with hres
        subst hres
        omega
      · rw [if_neg h10] at hres
        cases hres
  | succ n ih =>
      intro cursor k acc res hres hle
      simp only [fallbackLoop] at hres
      by_cases h10 : 10 ≤ acc.length
      · rw [if_pos h10] at hres
        injection hres with hres
        subst hres
        omega
      · rw [if_neg h10] at hres
        by_cases hany : (acc.any fun f =>
            f.time = (cursor + settings.feedWindows.ideal) % 1440) = true
        · rw [if_pos hany] at hres
          exact ih _ _ _ _ hres hle
        · rw [if_neg hany] at hres
          refine ih _ _ _ _ hres ?_
          rw [List.length_append, List.length_singleton]
          omega

lemma fallbackLoop_sound (settings : FeedingSettings) (newId : Nat → Nat) :
    ∀ (fuel cursor k : Nat) (acc res : List PlannedFeeding),
      fallbackLoop settings newId fuel cursor k acc = some res →
      ((acc.map fun f => f.time).Nodup) →
      ∃ ext, res = acc ++ ext ∧
        (∀ f ∈ ext, f.isLocked = false ∧ f.isCompleted = false ∧
          f.amount = JsonVal.num settings.feedAmounts.target ∧ f.time < 1440 ∧
          ∀ g ∈ acc, g.time ≠ f.time) ∧
        ((res.map fun f => f.time).Nodup) := by
  intro fuel
  induction fuel with
  | zero =>
      intro cursor k acc res hres hnd
      simp only [fallbackLoop] at hres
      by_cases h10 : 10 ≤ acc.length
      · rw [if_pos h10] at hres
        injection hres with hres
        subst hres
        exact ⟨[], (List.append_nil acc).symm,
          fun f hf => absurd hf (List.not_mem_nil f), hnd⟩
      · rw [if_neg h10] at hres
        cases hres
  | succ n ih =>
      intro cursor k acc res hres hnd
      simp only [fallbackLoop] at hres
      by_cases h10 : 10 ≤ acc.length
      · rw [if_pos h10] at hres
        injection hres with hres
        subst hres
        exact ⟨[], (List.append_nil acc).symm,
          fun f hf => absurd hf (List.not_mem_nil f), hnd⟩
      · rw [if_neg h10] at hres
        by_cases hany : (acc.any fun f =>
            f.time = (cursor + settings.feedWindows.ideal) % 1440) = true
        · rw [if_pos hany] at hres
          exact ih _ _ _ _ hres hnd
        · rw [if_neg hany] at hres
          have hfresh : ∀ g ∈ acc, g.time ≠ (cursor + settings.feedWindows.ideal) % 1440 := by
            intro g hg hgt
            exact hany (List.any_eq_true.mpr ⟨g, hg, by simp [hgt]⟩)
          have hnd' : (((acc ++
                ([{ id := newId k, time := (cursor + settings.feedWindows.ideal) % 1440,
                    amount := JsonVal.num settings.feedAmounts.target,
                    isLocked := false, isCompleted := false }] :
                  List PlannedFeeding)).map fun f => f.time).Nodup) := by
            rw [List.map_append, List.nodup_append]
            refine ⟨hnd, List.nodup_singleton _, ?_⟩
            intro x hx hx'
            rcases List.mem_map.mp hx with ⟨g, hg, rfl⟩
            rcases List.mem_singleton.mp hx' with h
            exact hfresh g hg h
          obtain ⟨ext, hres_eq, hext, hndres⟩ := ih _ _ _ _ hres hnd'
          refine ⟨{ id := newId k, time := (cursor + settings.feedWindows.ideal) % 1440,
                    amount := JsonVal.num settings.feedAmounts.target,
                    isLocked := false, isCompleted := false } :: ext, ?_, ?_, hndres⟩
          · rw [hres_eq, List.append_assoc]
            rfl
          · intro f hf
            rcases List.mem_cons.mp hf with rfl | hf'
            · exact ⟨rfl, rfl, rfl, Nat.mod_lt _ (by norm_num), hfresh⟩
            · obtain ⟨h1, h2, h3, h4, h5⟩ := hext f hf'
              exact ⟨h1, h2, h3, h4,
                fun g hg => h5 g (List.mem_append.mpr (Or.inl hg))⟩

lemma lockedEntries_map_time (settings : FeedingSettings) (newId : Nat → Nat)
    (hen : settings.lockedFeedings.enabled = true) :
    (lockedEntries settings newId).map (fun f => f.time) = settings.lockedFeedings.times := by
  unfold lockedEntries
  rw [if_pos hen, List.map_map]
  exact List.enum_map_snd _

lemma lockedEntries_empty (settings : FeedingSettings) (newId : Nat → Nat)
    (hen : ¬ settings.lockedFeedings.enabled = true) :
    lockedEntries settings newId = [] := by
  unfold lockedEntries
  rw [if_neg hen]

lemma countP_lockedEntries (settings : FeedingSettings) (newId : Nat → Nat)
    (hen : settings.lockedFeedings.enabled = true) (t : Nat) :
    ((lockedEntries settings newId).countP fun f => f.time == t)
      = settings.lockedFeedings.times.count t := by
  have h1 := List.countP_map (fun x : Nat => x == t) (fun f : PlannedFeeding => f.time)
    (lockedEntries settings newId)
  rw [lockedEntries_map_time settings newId hen] at h1
  have h2 : ((lockedEntries settings newId).countP fun f => f.time == t)
      = (lockedEntries settings newId).countP
          ((fun x : Nat => x == t) ∘ fun f => f.time) := rfl
  rw [h2, ← h1]
  rfl

instance planTimeLeIsTotal : IsTotal PlannedFeeding fun a b => a.time ≤ b.time :=
  ⟨fun a b => Nat.le_total a.time b.time⟩

instance planTimeLeIsTrans : IsTrans PlannedFeeding fun a b => a.time ≤ b.time :=
  ⟨fun _ _ _ hab hbc => Nat.le_trans hab hbc⟩

/-- C4 (amended): whenever the fallback scheduler terminates — with locked
times that are pairwise distinct, within the clock range, and at most 10 —
the returned plan has exactly 10 entries, strictly ascending (hence
pairwise distinct) time values, and, when locked feedings are enabled,
every configured locked time appears exactly once, with `isLocked = true`
and `amount = feedAmounts.target`. -/
theorem fallback_valid_when_terminates
    (settings : FeedingSettings) (now : Nat) (newId : Nat → Nat) (fuel : Nat)
    (plan : List PlannedFeeding)
    (_hw1 : 0 < settings.feedWindows.min)
    (_hw2 : settings.feedWindows.min ≤ settings.feedWindows.ideal)
    (_hw3 : settings.feedWindows.ideal ≤ settings.feedWindows.max)
    (_ha1 : settings.feedAmounts.min ≤ settings.feedAmounts.target)
    (_ha2 : settings.feedAmounts.target ≤ settings.feedAmounts.max)
    (hlock : settings.lockedFeedings.enabled = true →
      settings.lockedFeedings.times.Nodup ∧
      (∀ t ∈ settings.lockedFeedings.times, t < 1440) ∧
      settings.lockedFeedings.times.length ≤ 10)
    (hrun : generateFallbackPlan settings now newId fuel = some plan) :
    plan.length = 10 ∧
    List.Pairwise (fun a b => a.time < b.time) plan ∧
    (settings.lockedFeedings.enabled = true →
      ∀ t ∈ settings.lockedFeedings.times,
        (plan.countP fun e => e.time == t) = 1 ∧
        ∀ e ∈ plan, e.time = t →
          e.isLocked = true ∧ e.amount = JsonVal.num settings.feedAmounts.target) := by
  simp only [generateFallbackPlan] at hrun
  rcases Option.map_eq_some'.mp hrun with ⟨res, hres, rfl⟩
  have hndL : (((lockedEntries settings newId).map fun f => f.time).Nodup) := by
    by_cases hen : settings.lockedFeedings.enabled = true
    · rw [lockedEntries_map_time settings newId hen]
      exact (hlock hen).1
    · rw [lockedEntries_empty settings newId hen]
      exact List.nodup_nil
  have hlenL : (lockedEntries settings newId).length ≤ 10 := by
    by_cases hen : settings.lockedFeedings.enabled = true
    · have h := congrArg List.length (lockedEntries_map_time settings newId hen)
      rw [List.length_map] at h
      rw [h]
      exact (hlock hen).2.2
    · rw [lockedEntries_empty settings newId hen]
      exact Nat.le_of_lt (by norm_num)
  have hlen10 := fallbackLoop_length settings newId fuel now
    (lockedEntries settings newId).length (lockedEntries settings newId) res hres hlenL
  obtain ⟨ext, hres_eq, hext, hndres⟩ := fallbackLoop_sound settings newId fuel now
    (lockedEntries settings newId).length (lockedEntries settings newId) res hres hndL
  have hperm : List.Perm (sortFeedings res) res :=
    List.perm_insertionSort (fun a b : PlannedFeeding => a.time ≤ b.time) res
  refine ⟨?_, ?_, ?_⟩
  · rw [hperm.length_eq]
    exact hlen10
  · have hsorted : List.Pairwise (fun a b : PlannedFeeding => a.time ≤ b.time)
        (sortFeedings res) :=
      List.sorted_insertionSort (fun a b : PlannedFeeding => a.time ≤ b.time) res
    have hndmap : (((sortFeedings res).map fun f => f.time).Nodup) :=
      (List.Perm.nodup_iff (hperm.map fun f => f.time)).mpr hndres
    have hne : List.Pairwise (fun a b : PlannedFeeding => a.time ≠ b.time)
        (sortFeedings res) :=
      List.pairwise_map.mp hndmap
    exact (hsorted.and hne).imp fun h => lt_of_le_of_ne h.1 h.2
  · intro hen t ht
    have hcount_locked : ((lockedEntries settings newId).countP fun e => e.time == t) = 1 := by
      rw [countP_lockedEntries settings newId hen t]
      exact List.count_eq_one_of_mem (hlock hen).1 ht
    have hext_ne : ∀ f ∈ ext, ¬(f.time == t) = true := by
      intro f hf
      have h5 := (hext f hf).2.2.2.2
      have hmem : t ∈ (lockedEntries settings newId).map fun e => e.time := by
        rw [lockedEntries_map_time settings newId hen]
        exact ht
      rcases List.mem_map.mp hmem with ⟨g, hg, hgt⟩
      have hgf := h5 g hg
      simp only [beq_iff_eq]
      intro hft
      exact hgf (hgt.trans hft.symm)
    have hcount_ext : (ext.countP fun e => e.time == t) = 0 :=
      List.countP_eq_zero.mpr hext_ne
    refine ⟨?_, ?_⟩
    · calc ((sortFeedings res).countP fun e => e.time == t)
          = res.countP (fun e => e.time == t) := List.Perm.countP_eq _ hperm
        _ = ((lockedEntries settings newId).countP fun e => e.time == t)
              + (ext.countP fun e => e.time == t) := by
            rw [hres_eq, List.countP_append]
        _ = 1 := by rw [hcount_locked, hcount_ext]
    · intro e he het
      have he' : e ∈ res := hperm.mem_iff.mp he
      rw [hres_eq] at he'
      rcases List.mem_append.mp he' with heL | heE
      · have h := mem_lockedEntries settings newId e heL
        exact ⟨h.1, h.2.2.1⟩
      · cases (hext_ne e heE) (by simp [het])

/-- C4 counterexample: `settingsDupLocked` satisfies every hypothesis the
claim states (positive ordered windows, ordered amounts), yet the fallback
scheduler terminates with a 10-entry plan whose time values are NOT
pairwise distinct — the duplicated locked time 08:00 appears twice — so the
claim as stated is false. -/
theorem fallback_dup_locked_counterexample :
    (0 < settingsDupLocked.feedWindows.min ∧
     settingsDupLocked.feedWindows.min ≤ settingsDupLocked.feedWindows.ideal ∧
     settingsDupLocked.feedWindows.ideal ≤ settingsDupLocked.feedWindows.max ∧
     settingsDupLocked.feedAmounts.min ≤ settingsDupLocked.feedAmounts.target ∧
     settingsDupLocked.feedAmounts.target ≤ settingsDupLocked.feedAmounts.max) ∧
    Option.map (List.map fun e => e.time)
        (generateFallbackPlan settingsDupLocked 510 (fun k => k) 20)
      = some [120, 270, 480, 480, 660, 810, 960, 1110, 1260, 1410] ∧
    settingsDupLocked.lockedFeedings.enabled = true ∧
    480 ∈ settingsDupLocked.lockedFeedings.times ∧
    ¬ ([120, 270, 480, 480, 660, 810, 960, 1110, 1260, 1410] : List Nat).Nodup := by
  refine ⟨by decide, ?_, rfl, by decide, by decide⟩
  rfl

/-- The plan the fallback scheduler produces for spec §8 scenario 1. -/
def scenario1Plan : List PlannedFeeding :=
  [{ id := 1, time := 30, amount := JsonVal.num 2, isLocked := true, isCompleted := false },
   { id := 2, time := 180, amount := JsonVal.num 2, isLocked := true, isCompleted := false },
   { id := 3, time := 330, amount := JsonVal.num 2, isLocked := true, isCompleted := false },
   { id := 4, time := 480, amount := JsonVal.num 2, isLocked := true, isCompleted := false },
   { id := 5, time := 660, amount := JsonVal.num 2, isLocked := false, isCompleted := false },
   { id := 6, time := 810, amount := JsonVal.num 2, isLocked := false, isCompleted := false },
   { id := 7, time := 960, amount := JsonVal.num 2, isLocked := false, isCompleted := false },
   { id := 8, time := 1110, amount := JsonVal.num 2, isLocked := false, isCompleted := false },
   { id := 9, time := 1260, amount := JsonVal.num 2, isLocked := false, isCompleted := false },
   { id := 0, time := 1320, amount := JsonVal.num 2, isLocked := true, isCompleted := false }]

/-- C4 witness: the amended theorem applied to spec §8 scenario 1, whose
run terminates within 10 iterations. -/
theorem fallback_valid_when_terminates_witness :
    scenario1Plan.length = 10 ∧
    List.Pairwise (fun a b => a.time < b.time) scenario1Plan ∧
    (settingsScenario1.lockedFeedings.enabled = true →
      ∀ t ∈ settingsScenario1.lockedFeedings.times,
        (scenario1Plan.countP fun e => e.time == t) = 1 ∧
        ∀ e ∈ scenario1Plan, e.time = t →
          e.isLocked = true ∧
            e.amount = JsonVal.num settingsScenario1.feedAmounts.target) :=
  fallback_valid_when_terminates settingsScenario1 510 (fun k => k) 10 scenario1Plan
    (by decide) (by decide) (by decide) (by decide) (by decide)
    (fun _ => ⟨by decide, by decide, by decide⟩) (by decide)
